import Mathlib

/-!
# Verification of the PB assignment core of PBxplore (`PBassign.py`)

This file gives a shallow embedding of the Protein-Block assignment core:
the reference-library loader `read_pb_definitions`, the angle normalization
`angle_modulo_360` (and its vectorized form), and the per-residue window
classifier `PB_assign`.  Angles are modelled as rationals; Python dictionaries
are modelled as association lists with last-write-wins insertion, preserving
insertion order exactly as Python 3 dicts do; a Python exception escaping a
function is modelled by the function returning `none`.
-/

namespace PBxplore

/-- Embedding of `angle_modulo_360` from `PBassign.py` (lines 65-73): a single
conditional correction by ±360, with angles in `[-180, 180]` returned
unchanged. -/
def angle_modulo_360 (angle : ℚ) : ℚ :=
  if angle > 180 then angle - 360
  else if angle < -180 then angle + 360
  else angle

/-- Embedding of `angle_modulo_360_vect = numpy.vectorize(angle_modulo_360)`
(line 162): element-wise application of `angle_modulo_360`. -/
def angle_modulo_360_vect (angles : List ℚ) : List ℚ :=
  angles.map angle_modulo_360

/-- One residue's entry in the phi/psi map produced by
`structure.get_phi_psi_angles()`.  `none` models both a missing dictionary key
(Python `KeyError`, caught by the `try` in `PB_assign`) and the `None` marker
for a torsion that could not be computed (caught by the `if None in angles`
test); both paths yield the sentinel `Z`, so the two are observationally
identical in `PB_assign`. -/
structure Dihedral where
  phi : Option ℚ
  psi : Option ℚ

/-- The per-residue angle map `dihedrals`, keyed by integer residue number. -/
abbrev AngleMap := List (Int × Dihedral)

/-- Python dictionary indexing `d[k]`: the value stored at key `k`, or `none`
(modelling `KeyError`) when the key is absent. -/
def dictGet {κ β : Type} [DecidableEq κ] : List (κ × β) → κ → Option β
  | [], _ => none
  | (k0, v) :: rest, k => if k0 = k then some v else dictGet rest k

/-- Python dictionary assignment `d[k] = v`: overwrite the value if the key is
present (keeping its position, as Python 3 dicts do), otherwise append the new
binding at the end of the insertion order. -/
def dictInsert {κ β : Type} [DecidableEq κ] : List (κ × β) → κ → β → List (κ × β)
  | [], k, v => [(k, v)]
  | (k0, v0) :: rest, k, v =>
    if k0 = k then (k0, v) :: rest else (k0, v0) :: dictInsert rest k v

/-- Python `min` over an iterable: `none` models the `ValueError` raised on an
empty iterable. -/
def pyMin {α : Type} [LinearOrder α] : List α → Option α
  | [] => none
  | x :: xs => some (xs.foldl min x)

/-- Window assembly from `PB_assign` (lines 116-129): the eight angles
`psi(i-2), phi(i-1), psi(i-1), phi(i), psi(i), phi(i+1), psi(i+1), phi(i+2)`.
`none` models the caught failure paths: a `KeyError` on a missing neighbour
residue or a `None` torsion value detected by `if None in angles`. -/
def buildWindow (m : AngleMap) (res : Int) : Option (List ℚ) :=
  match dictGet m (res - 2), dictGet m (res - 1), dictGet m res,
        dictGet m (res + 1), dictGet m (res + 2) with
  | some d2m, some d1m, some d0, some d1p, some d2p =>
    match d2m.psi, d1m.phi, d1m.psi, d0.phi, d0.psi, d1p.phi, d1p.psi, d2p.phi with
    | some a1, some a2, some a3, some a4, some a5, some a6, some a7, some a8 =>
      some [a1, a2, a3, a4, a5, a6, a7, a8]
    | _, _, _, _, _, _, _, _ => none
  | _, _, _, _, _ => none

/-- The per-block score from `PB_assign` (lines 144-146):
`diff = pb_ref[block] - angles`, `diff2 = angle_modulo_360_vect(diff)`,
`rmsda = numpy.sum(diff2**2)` — sum of squared circularly-normalized
deviations, no square root and no averaging. -/
def rmsda (refAngles angles : List ℚ) : ℚ :=
  ((angle_modulo_360_vect (List.zipWith (fun a b => a - b) refAngles angles)).map
    (fun d => d ^ 2)).sum

/-- The score dictionary `rmsda_lst` built by the block loop of `PB_assign`
(lines 142-147): keyed by score, valued by block label, so blocks whose scores
collide overwrite earlier blocks at the same key. -/
def buildScores (ref : List (String × List ℚ)) (angles : List ℚ) : List (ℚ × String) :=
  ref.foldl (fun d p => dictInsert d (rmsda p.2 angles) p.1) []

/-- Block selection of `PB_assign` (line 148): `rmsda_lst[min(rmsda_lst)]`.
`none` models the two uncaught exceptions possible here: the `ValueError` of
`min` on an empty dictionary (empty reference library) and the numpy shape
error when a reference vector's arity differs from the window's (length-1
numpy broadcasting, impossible with the PB library, is not modelled). -/
def classify (ref : List (String × List ℚ)) (angles : List ℚ) : Option String :=
  if ∀ p ∈ ref, p.2.length = angles.length then
    match pyMin ((buildScores ref angles).map Prod.fst) with
    | none => none
    | some k => dictGet (buildScores ref angles) k
  else none

/-- One iteration of the residue loop of `PB_assign` (lines 113-148): a failed
window yields the sentinel `"Z"`, otherwise the selected block's label (a
Python string, appended to `pb_seq` character by character) is produced.
`none` models an uncaught exception. -/
def assignRes (ref : List (String × List ℚ)) (m : AngleMap) (res : Int) :
    Option (List Char) :=
  match buildWindow m res with
  | none => some ['Z']
  | some angles =>
    match classify ref angles with
    | none => none
    | some block => some block.data

/-- The residue loop of `PB_assign` accumulating `pb_seq` over a given residue
order; an uncaught exception (`none`) aborts the whole assignment. -/
def assignAll (ref : List (String × List ℚ)) (m : AngleMap) :
    List Int → Option (List Char)
  | [] => some []
  | res :: rest =>
    match assignRes ref m res with
    | none => none
    | some cs =>
      match assignAll ref m rest with
      | none => none
      | some tail => some (cs ++ tail)

/-- `sorted(dihedrals)` (line 113): the residue keys in ascending order. -/
def residues (m : AngleMap) : List Int :=
  List.insertionSort (· ≤ ·) (m.map Prod.fst)

/-- Embedding of `PB_assign` from `PBassign.py` (lines 101-157), restricted to
its classification core: iterate over the residues in ascending key order and
accumulate one label per residue into `pb_seq` (the file-writing side effects
are outside the model).  `none` models an uncaught exception. -/
def PB_assign (ref : List (String × List ℚ)) (m : AngleMap) : Option (List Char) :=
  assignAll ref m (residues m)

/-- The character contributed by one residue when every block label is a single
character: the label's character, or `Z` when the window cannot be built. -/
def resLabel (ref : List (String × List ℚ)) (m : AngleMap) (res : Int) : Char :=
  ((assignRes ref m res).getD ['Z']).headD 'Z'

/-- The label of the last block in library order whose score against `w`
equals `k` — the value that key `k` holds in `rmsda_lst` after the block loop,
since later blocks overwrite earlier ones at an equal score key. -/
def lastScore (ref : List (String × List ℚ)) (w : List ℚ) (k : ℚ) : Option String :=
  ref.foldl (fun acc p => if rmsda p.2 w = k then some p.1 else acc) none

/-- Python `text.split(sep)` for a one-character separator: splits at every
occurrence, keeping empty pieces (so `"".split(sep) == [""]`). -/
def splitOnChar (sep : Char) : List Char → List (List Char)
  | [] => [[]]
  | c :: cs =>
    if c = sep then [] :: splitOnChar sep cs
    else
      match splitOnChar sep cs with
      | [] => [[c]]
      | l :: ls => (c :: l) :: ls

/-- Accumulator-passing core of `pySplit`: `acc` holds the current token's
characters in reverse. -/
def pySplitAux (acc : List Char) : List Char → List (List Char)
  | [] => if acc = [] then [] else [acc.reverse]
  | c :: cs =>
    if c.isWhitespace then
      if acc = [] then pySplitAux [] cs else acc.reverse :: pySplitAux [] cs
    else pySplitAux (c :: acc) cs

/-- Python `line.split()` with no argument: split on runs of whitespace,
discarding empty tokens and leading/trailing whitespace. -/
def pySplit (cs : List Char) : List (List Char) :=
  pySplitAux [] cs

/-- The natural number denoted by a string of decimal digits (`some 0` on the
empty string — callers check non-emptiness); `none` when a non-digit occurs. -/
def natOfDigits (ds : List Char) : Option ℕ :=
  ds.foldl
    (fun acc c =>
      match acc with
      | none => none
      | some n => if c.isDigit then some (10 * n + (c.toNat - 48)) else none)
    (some 0)

/-- The unsigned part of Python's `float` builtin on the plain decimal
literals used in PB definition files: digits with an optional fractional part
(`"12"`, `"12."`, `"12.5"`, `".5"`); `none` models the `ValueError` on
anything else.  Exotic float syntax (exponents, `inf`, `nan`) never occurs in
PB definitions and is outside the model. -/
def pyFloatCore (cs : List Char) : Option ℚ :=
  match splitOnChar '.' cs with
  | [ds] =>
    if ds = [] then none else (natOfDigits ds).map (fun n => (n : ℚ))
  | [ds1, ds2] =>
    if ds1 = [] ∧ ds2 = [] then none
    else
      match natOfDigits ds1, natOfDigits ds2 with
      | some n1, some n2 => some ((n1 : ℚ) + (n2 : ℚ) / (10 : ℚ) ^ ds2.length)
      | _, _ => none
  | _ => none

/-- Python's `float` builtin on decimal literals: an optional sign followed by
`pyFloatCore`; `none` models the `ValueError` on malformed input. -/
def pyFloat (cs : List Char) : Option ℚ :=
  match cs with
  | '-' :: rest => (pyFloatCore rest).map (fun q => -q)
  | '+' :: rest => pyFloatCore rest
  | _ => pyFloatCore cs

/-- One iteration of the line loop of `read_pb_definitions` (lines 56-59):
skip a line that is empty or contains `#`; otherwise whitespace-split it,
take `items[0]` as the label (`none` models the `IndexError` when the line is
pure whitespace) and parse every remaining token with `float` (`none` models
its `ValueError`), then store the vector under the label. -/
def parse_pb_line (d : List (String × List ℚ)) (line : List Char) :
    Option (List (String × List ℚ)) :=
  if line ≠ [] ∧ '#' ∉ line then
    match pySplit line with
    | [] => none
    | label :: rest =>
      match rest.mapM pyFloat with
      | none => none
      | some angles => some (dictInsert d (String.mk label) angles)
  else some d

/-- The line loop of `read_pb_definitions` (lines 55-59): fold
`parse_pb_line` over `pb_angles_string.split("\n")`, starting from an empty
dictionary. -/
def load_pb_lines (s : String) : Option (List (String × List ℚ)) :=
  (splitOnChar '\n' s.data).foldlM parse_pb_line []

/-- Embedding of `read_pb_definitions` from `PBassign.py` (lines 51-62): parse
the definition text, then print the diagnostic
`len(pb_angles), len(pb_angles["a"])` — whose indexing of label `"a"` raises
an uncaught `KeyError` (modelled by `none`) when no line defines `"a"` — and
return the dictionary.  No arity check of any kind is performed. -/
def read_pb_definitions (s : String) : Option (List (String × List ℚ)) :=
  match load_pb_lines s with
  | none => none
  | some d => if (dictGet d "a").isSome then some d else none

/-! ## Properties of `angle_modulo_360` -/

theorem amod_congr (x : ℚ) : ∃ k : ℤ, angle_modulo_360 x - x = 360 * k := by
  unfold angle_modulo_360
  split_ifs
  · exact ⟨-1, by push_cast; ring⟩
  · exact ⟨1, by push_cast; ring⟩
  · exact ⟨0, by push_cast; ring⟩

theorem amod_range (x : ℚ) (h1 : -540 ≤ x) (h2 : x ≤ 540) :
    -180 ≤ angle_modulo_360 x ∧ angle_modulo_360 x ≤ 180 := by
  unfold angle_modulo_360
  split_ifs with ha hb
  · constructor <;> linarith
  · constructor <;> linarith
  · constructor <;> linarith

theorem amod_id (x : ℚ) (h1 : -180 ≤ x) (h2 : x ≤ 180) : angle_modulo_360 x = x := by
  unfold angle_modulo_360
  split_ifs with ha hb
  · linarith
  · linarith
  · rfl

theorem rmsda_self (l : List ℚ) : rmsda l l = 0 := by
  induction l with
  | nil => rfl
  | cons a t ih =>
    simp only [rmsda, angle_modulo_360_vect, List.zipWith_cons_cons, List.map_cons,
      List.sum_cons, sub_self] at ih ⊢
    rw [amod_id 0 (by norm_num) (by norm_num)]
    simpa using ih

theorem rmsda_nonneg (u v : List ℚ) : 0 ≤ rmsda u v := by
  apply List.sum_nonneg
  intro x hx
  obtain ⟨d, _, rfl⟩ := List.mem_map.mp hx
  exact sq_nonneg d

/-! ## Properties of the Python dictionary and `min` models -/

theorem dictGet_nil {κ β : Type} [DecidableEq κ] (k : κ) :
    dictGet ([] : List (κ × β)) k = none := rfl

theorem dictGet_cons {κ β : Type} [DecidableEq κ] (k0 : κ) (v : β) (d : List (κ × β))
    (k : κ) : dictGet ((k0, v) :: d) k = if k0 = k then some v else dictGet d k := rfl

theorem dictInsert_nil {κ β : Type} [DecidableEq κ] (k : κ) (v : β) :
    dictInsert ([] : List (κ × β)) k v = [(k, v)] := rfl

theorem dictInsert_cons {κ β : Type} [DecidableEq κ] (k1 : κ) (v1 : β)
    (d : List (κ × β)) (k : κ) (v : β) :
    dictInsert ((k1, v1) :: d) k v =
      if k1 = k then (k1, v) :: d else (k1, v1) :: dictInsert d k v := rfl

theorem dictGet_dictInsert {κ β : Type} [DecidableEq κ] (d : List (κ × β)) (k0 k : κ)
    (v : β) : dictGet (dictInsert d k0 v) k = if k0 = k then some v else dictGet d k := by
  induction d with
  | nil => simp [dictInsert_nil, dictGet_cons, dictGet_nil]
  | cons p rest ih =>
    obtain ⟨k1, v1⟩ := p
    by_cases h1 : k1 = k0
    · subst h1
      by_cases h2 : k1 = k <;> simp [dictInsert_cons, dictGet_cons, h2]
    · by_cases h2 : k1 = k
      · subst h2
        have h3 : ¬ k0 = k1 := fun h => h1 h.symm
        simp [dictInsert_cons, dictGet_cons, h1, h3]
      · simp [dictInsert_cons, dictGet_cons, h1, h2, ih]

theorem mem_keys_dictInsert {κ β : Type} [DecidableEq κ] (d : List (κ × β)) (k0 k : κ)
    (v : β) : k ∈ (dictInsert d k0 v).map Prod.fst ↔ k = k0 ∨ k ∈ d.map Prod.fst := by
  induction d with
  | nil => simp [dictInsert_nil]
  | cons p rest ih =>
    obtain ⟨k1, v1⟩ := p
    by_cases h1 : k1 = k0
    · subst h1
      rw [dictInsert_cons, if_pos rfl]
      simp only [List.map_cons, List.mem_cons]
      tauto
    · rw [dictInsert_cons, if_neg h1]
      simp only [List.map_cons, List.mem_cons, ih]
      tauto

theorem foldl_min_choice {α : Type} [LinearOrder α] (xs : List α) :
    ∀ x : α, xs.foldl min x = x ∨ xs.foldl min x ∈ xs := by
  induction xs with
  | nil => intro x; left; rfl
  | cons y ys ih =>
    intro x
    simp only [List.foldl_cons, List.mem_cons]
    rcases ih (min x y) with h | h
    · rcases min_choice x y with hm | hm
      · left; rw [h, hm]
      · right; left; rw [h, hm]
    · right; right; exact h

theorem foldl_min_le {α : Type} [LinearOrder α] (xs : List α) :
    ∀ x : α, xs.foldl min x ≤ x ∧ ∀ b ∈ xs, xs.foldl min x ≤ b := by
  induction xs with
  | nil => intro x; exact ⟨le_refl x, by simp⟩
  | cons y ys ih =>
    intro x
    simp only [List.foldl_cons, List.mem_cons]
    refine ⟨le_trans (ih (min x y)).1 (min_le_left x y), ?_⟩
    rintro b (rfl | hb)
    · exact le_trans (ih (min x b)).1 (min_le_right x b)
    · exact (ih (min x y)).2 b hb

theorem pyMin_spec {α : Type} [LinearOrder α] (l : List α) (a : α)
    (h : pyMin l = some a) : a ∈ l ∧ ∀ b ∈ l, a ≤ b := by
  cases l with
  | nil => cases h
  | cons x xs =>
    unfold pyMin at h
    injection h with h
    subst h
    constructor
    · rcases foldl_min_choice xs x with h | h
      · rw [h]; exact List.mem_cons_self x xs
      · exact List.mem_cons_of_mem x h
    · intro b hb
      rcases List.mem_cons.mp hb with h | h
      · rw [h]; exact (foldl_min_le xs x).1
      · exact (foldl_min_le xs x).2 b h

theorem pyMin_isSome {α : Type} [LinearOrder α] (l : List α) (h : l ≠ []) :
    ∃ a, pyMin l = some a := by
  cases l with
  | nil => exact absurd rfl h
  | cons x xs => exact ⟨xs.foldl min x, rfl⟩

/-! ## The score dictionary and block selection -/

theorem buildScores_get_aux (w : List ℚ) (k : ℚ) (ref : List (String × List ℚ)) :
    ∀ d : List (ℚ × String),
      dictGet (ref.foldl (fun d p => dictInsert d (rmsda p.2 w) p.1) d) k =
        ref.foldl (fun acc p => if rmsda p.2 w = k then some p.1 else acc) (dictGet d k) := by
  induction ref with
  | nil => intro d; rfl
  | cons p ps ih =>
    intro d
    simp only [List.foldl_cons]
    rw [ih, dictGet_dictInsert]

/-- After the block loop, the value that `rmsda_lst` holds at key `k` is the
label of the last block whose score is `k`. -/
theorem buildScores_get (ref : List (String × List ℚ)) (w : List ℚ) (k : ℚ) :
    dictGet (buildScores ref w) k = lastScore ref w k := by
  unfold buildScores lastScore
  rw [buildScores_get_aux, dictGet_nil]

theorem mem_keys_buildScores_aux (w : List ℚ) (k : ℚ) (ref : List (String × List ℚ)) :
    ∀ d : List (ℚ × String),
      (k ∈ ((ref.foldl (fun d p => dictInsert d (rmsda p.2 w) p.1) d).map Prod.fst) ↔
        (∃ p ∈ ref, rmsda p.2 w = k) ∨ k ∈ d.map Prod.fst) := by
  induction ref with
  | nil => intro d; simp
  | cons p ps ih =>
    intro d
    simp only [List.foldl_cons]
    rw [ih, mem_keys_dictInsert]
    constructor
    · rintro (⟨q, hq, hk⟩ | (h | h))
      · exact Or.inl ⟨q, List.mem_cons_of_mem p hq, hk⟩
      · exact Or.inl ⟨p, List.mem_cons_self p ps, h.symm⟩
      · exact Or.inr h
    · rintro (⟨q, hq, hk⟩ | h)
      · rcases List.mem_cons.mp hq with h1 | h1
        · subst h1; exact Or.inr (Or.inl hk.symm)
        · exact Or.inl ⟨q, h1, hk⟩
      · exact Or.inr (Or.inr h)

/-- The keys of `rmsda_lst` are exactly the scores of the blocks. -/
theorem mem_keys_buildScores (ref : List (String × List ℚ)) (w : List ℚ) (k : ℚ) :
    k ∈ (buildScores ref w).map Prod.fst ↔ ∃ p ∈ ref, rmsda p.2 w = k := by
  unfold buildScores
  rw [mem_keys_buildScores_aux]
  simp

/-- Over a nonempty, arity-consistent library, `classify` looks up the minimal
score `k` in the score dictionary, and that lookup is `lastScore ref w k`. -/
theorem classify_spec (ref : List (String × List ℚ)) (w : List ℚ) (href : ref ≠ [])
    (hlen : ∀ p ∈ ref, p.2.length = w.length) :
    ∃ k, (∃ p ∈ ref, rmsda p.2 w = k) ∧ (∀ p ∈ ref, k ≤ rmsda p.2 w) ∧
      classify ref w = lastScore ref w k := by
  have hmem0 : rmsda (ref.head href).2 w ∈ (buildScores ref w).map Prod.fst :=
    (mem_keys_buildScores ref w _).mpr ⟨ref.head href, List.head_mem href, rfl⟩
  obtain ⟨k, hk⟩ := pyMin_isSome _ (List.ne_nil_of_mem hmem0)
  obtain ⟨hkmem, hkle⟩ := pyMin_spec _ _ hk
  refine ⟨k, (mem_keys_buildScores ref w k).mp hkmem, ?_, ?_⟩
  · intro p hp
    exact hkle _ ((mem_keys_buildScores ref w _).mpr ⟨p, hp, rfl⟩)
  · unfold classify
    rw [if_pos hlen, hk]
    exact buildScores_get ref w k

theorem foldl_lastWrite_mem (w : List ℚ) (k : ℚ) (ref : List (String × List ℚ)) :
    ∀ (init : Option String) (b : String),
      ref.foldl (fun acc p => if rmsda p.2 w = k then some p.1 else acc) init = some b →
        (∃ v, (b, v) ∈ ref ∧ rmsda v w = k) ∨ init = some b := by
  induction ref with
  | nil => intro init b h; exact Or.inr h
  | cons p ps ih =>
    intro init b h
    simp only [List.foldl_cons] at h
    rcases ih _ b h with ⟨v, hv, hk⟩ | h2
    · exact Or.inl ⟨v, List.mem_cons_of_mem p hv, hk⟩
    · obtain ⟨bp, vp⟩ := p
      by_cases hc : rmsda vp w = k
      · rw [if_pos hc] at h2
        injection h2 with h2
        subst h2
        exact Or.inl ⟨vp, List.mem_cons_self _ ps, hc⟩
      · rw [if_neg hc] at h2
        exact Or.inr h2

/-- The label that `classify` would return at score key `k` is the label of a
block whose score is `k`. -/
theorem lastScore_some_mem (ref : List (String × List ℚ)) (w : List ℚ) (k : ℚ)
    (b : String) (h : lastScore ref w k = some b) :
    ∃ v, (b, v) ∈ ref ∧ rmsda v w = k := by
  rcases foldl_lastWrite_mem w k ref none b h with hm | hnone
  · exact hm
  · cases hnone

theorem foldl_lastWrite_isSome (w : List ℚ) (k : ℚ) (ref : List (String × List ℚ)) :
    ∀ init : Option String,
      ((∃ p ∈ ref, rmsda p.2 w = k) ∨ ∃ b, init = some b) →
        ∃ b, ref.foldl (fun acc p => if rmsda p.2 w = k then some p.1 else acc) init =
          some b := by
  induction ref with
  | nil =>
    intro init h
    rcases h with ⟨p, hp, _⟩ | hb
    · cases hp
    · exact hb
  | cons p ps ih =>
    intro init h
    simp only [List.foldl_cons]
    apply ih
    rcases h with ⟨q, hq, hk⟩ | ⟨b, hb⟩
    · rcases List.mem_cons.mp hq with h1 | h1
      · subst h1
        exact Or.inr ⟨q.1, by rw [if_pos hk]⟩
      · exact Or.inl ⟨q, h1, hk⟩
    · by_cases hc : rmsda p.2 w = k
      · exact Or.inr ⟨p.1, by rw [if_pos hc]⟩
      · exact Or.inr ⟨b, by rw [if_neg hc]; exact hb⟩

theorem lastScore_isSome (ref : List (String × List ℚ)) (w : List ℚ) (k : ℚ)
    (h : ∃ p ∈ ref, rmsda p.2 w = k) : ∃ b, lastScore ref w k = some b :=
  foldl_lastWrite_isSome w k ref none (Or.inl h)

theorem foldl_no_achiever (w : List ℚ) (k : ℚ) (ref : List (String × List ℚ))
    (hno : ∀ p ∈ ref, rmsda p.2 w ≠ k) (init : Option String) :
    ref.foldl (fun acc p => if rmsda p.2 w = k then some p.1 else acc) init = init := by
  induction ref generalizing init with
  | nil => rfl
  | cons p ps ih =>
    simp only [List.foldl_cons]
    rw [if_neg (hno p (List.mem_cons_self p ps)),
      ih (fun q hq => hno q (List.mem_cons_of_mem p hq))]

/-- Because later blocks overwrite earlier ones at an equal score key, the
value stored at key `k` is the label of the *last* block achieving score `k`. -/
theorem lastScore_last (w : List ℚ) (k : ℚ) (ref : List (String × List ℚ)) :
    ∀ (init : Option String) (i : ℕ) (hi : i < ref.length),
      rmsda (ref.get ⟨i, hi⟩).2 w = k →
      (∀ j (hj : j < ref.length), i < j → rmsda (ref.get ⟨j, hj⟩).2 w ≠ k) →
      ref.foldl (fun acc p => if rmsda p.2 w = k then some p.1 else acc) init =
        some (ref.get ⟨i, hi⟩).1 := by
  induction ref with
  | nil => intro init i hi; exact absurd hi (by simp)
  | cons p ps ih =>
    intro init i hi hik hafter
    simp only [List.foldl_cons]
    cases i with
    | zero =>
      have hik' : rmsda p.2 w = k := by simpa using hik
      have hnone : ∀ q ∈ ps, rmsda q.2 w ≠ k := by
        intro q hq
        obtain ⟨⟨n, hn⟩, rfl⟩ := List.mem_iff_get.mp hq
        have := hafter (n + 1) (by simpa using Nat.succ_lt_succ hn) (Nat.succ_pos n)
        simpa using this
      rw [if_pos hik', foldl_no_achiever w k ps hnone]
      simp
    | succ j =>
      have hj : j < ps.length := by simpa using hi
      have hik' : rmsda (ps.get ⟨j, hj⟩).2 w = k := by simpa using hik
      have hafter' : ∀ j' (hj' : j' < ps.length), j < j' →
          rmsda (ps.get ⟨j', hj'⟩).2 w ≠ k := by
        intro j' hj' hlt
        have := hafter (j' + 1) (by simpa using Nat.succ_lt_succ hj') (Nat.succ_lt_succ hlt)
        simpa using this
      have := ih (if rmsda p.2 w = k then some p.1 else init) j hj hik' hafter'
      simpa using this

/-! ## The residue loop -/

theorem buildWindow_length (m : AngleMap) (res : Int) (w : List ℚ)
    (h : buildWindow m res = some w) : w.length = 8 := by
  unfold buildWindow at h
  repeat split at h
  all_goals cases h
  rfl

theorem assignRes_Z (ref : List (String × List ℚ)) (m : AngleMap) (res : Int)
    (hw : buildWindow m res = none) : assignRes ref m res = some ['Z'] := by
  simp [assignRes, hw]

/-- Over a nonempty library of 8-angle blocks, a residue with a complete
window is assigned the label of a block whose score is minimal. -/
theorem assignRes_some_window (ref : List (String × List ℚ)) (m : AngleMap) (res : Int)
    (w : List ℚ) (href : ref ≠ []) (hlen8 : ∀ p ∈ ref, p.2.length = 8)
    (hw : buildWindow m res = some w) :
    ∃ b v, (b, v) ∈ ref ∧ assignRes ref m res = some b.data ∧
      ∀ p ∈ ref, rmsda v w ≤ rmsda p.2 w := by
  have hlen : ∀ p ∈ ref, p.2.length = w.length := fun p hp => by
    rw [hlen8 p hp, buildWindow_length m res w hw]
  obtain ⟨k, hach, hmin, hcls⟩ := classify_spec ref w href hlen
  obtain ⟨b, hb⟩ := lastScore_isSome ref w k hach
  obtain ⟨v, hv, hkv⟩ := lastScore_some_mem ref w k b hb
  refine ⟨b, v, hv, ?_, ?_⟩
  · simp only [assignRes, hw, hcls, hb]
  · intro p hp
    rw [hkv]
    exact hmin p hp

theorem assignRes_isSome (ref : List (String × List ℚ)) (m : AngleMap) (res : Int)
    (href : ref ≠ []) (hlen8 : ∀ p ∈ ref, p.2.length = 8) :
    ∃ cs, assignRes ref m res = some cs := by
  cases hw : buildWindow m res with
  | none => exact ⟨['Z'], assignRes_Z ref m res hw⟩
  | some w =>
    obtain ⟨b, v, _, hres, _⟩ := assignRes_some_window ref m res w href hlen8 hw
    exact ⟨b.data, hres⟩

/-- With single-character labels none of which is the sentinel `"Z"`, each
residue contributes exactly one character, and that character is `Z` exactly
when the window could not be assembled. -/
theorem assignRes_char (ref : List (String × List ℚ)) (m : AngleMap) (res : Int)
    (href : ref ≠ []) (hlen8 : ∀ p ∈ ref, p.2.length = 8)
    (hlab : ∀ p ∈ ref, p.1.data.length = 1) (hz : ∀ p ∈ ref, p.1 ≠ "Z") :
    ∃ c, assignRes ref m res = some [c] ∧ (c = 'Z' ↔ buildWindow m res = none) := by
  cases hw : buildWindow m res with
  | none => exact ⟨'Z', assignRes_Z ref m res hw, by simp⟩
  | some w =>
    obtain ⟨b, v, hbv, hres, _⟩ := assignRes_some_window ref m res w href hlen8 hw
    obtain ⟨c, hc⟩ := List.length_eq_one.mp (hlab (b, v) hbv)
    refine ⟨c, by rw [hres, hc], ?_⟩
    constructor
    · intro hcz
      exfalso
      apply hz (b, v) hbv
      have hdata : b.data = ['Z'] := by rw [hc, hcz]
      cases b
      exact congrArg String.mk hdata
    · intro h
      cases h

theorem assignAll_eq_map (ref : List (String × List ℚ)) (m : AngleMap) :
    ∀ l : List Int, (∀ r ∈ l, ∃ c, assignRes ref m r = some [c]) →
      assignAll ref m l = some (l.map (resLabel ref m)) := by
  intro l
  induction l with
  | nil => intro _; rfl
  | cons r rs ih =>
    intro h
    obtain ⟨c, hc⟩ := h r (List.mem_cons_self r rs)
    have hrs := ih (fun q hq => h q (List.mem_cons_of_mem r hq))
    simp [assignAll, hc, hrs, resLabel]

theorem assignAll_isSome (ref : List (String × List ℚ)) (m : AngleMap) :
    ∀ l : List Int, (∀ r ∈ l, ∃ cs, assignRes ref m r = some cs) →
      ∃ out, assignAll ref m l = some out := by
  intro l
  induction l with
  | nil => intro _; exact ⟨[], rfl⟩
  | cons r rs ih =>
    intro h
    obtain ⟨cs, hc⟩ := h r (List.mem_cons_self r rs)
    obtain ⟨out, hout⟩ := ih (fun q hq => h q (List.mem_cons_of_mem r hq))
    exact ⟨cs ++ out, by simp [assignAll, hc, hout]⟩

theorem residues_sorted (m : AngleMap) : List.Sorted (· ≤ ·) (residues m) :=
  List.sorted_insertionSort _ _

theorem residues_perm (m : AngleMap) : List.Perm (residues m) (m.map Prod.fst) :=
  List.perm_insertionSort _ _

theorem residues_length (m : AngleMap) : (residues m).length = m.length := by
  rw [(residues_perm m).length_eq, List.length_map]

theorem residues_nodup (m : AngleMap) (h : (m.map Prod.fst).Nodup) :
    (residues m).Nodup :=
  (residues_perm m).nodup_iff.mpr h

/-! ## Concrete instances used by the end-to-end scenario -/

/-- The two-block reference library of the end-to-end scenario:
`{"a": [0]*8, "b": [10]*8}`. -/
def refAB : List (String × List ℚ) :=
  [("a", [0, 0, 0, 0, 0, 0, 0, 0]), ("b", [10, 10, 10, 10, 10, 10, 10, 10])]

/-- The angle map of the end-to-end scenario: residues 1..5, every phi/psi
resolved, all angles zero, so residue 3's window is `[0]*8`. -/
def mapFive : AngleMap :=
  [(1, ⟨some 0, some 0⟩), (2, ⟨some 0, some 0⟩), (3, ⟨some 0, some 0⟩),
   (4, ⟨some 0, some 0⟩), (5, ⟨some 0, some 0⟩)]

/-! ## Claims -/

/-- Claim C1: for a residue whose 8-angle window is fully assembled,
`PB_assign` scores every reference block by the circular sum of squared
angular deviations and appends the label of a block attaining the minimal
score; in particular a window bit-identical to one block's prototype (all
other blocks at nonzero score) receives that block's label, with score 0. -/
theorem PB_assign_min_score (ref : List (String × List ℚ)) (m : AngleMap) (res : Int)
    (w : List ℚ) (href : ref ≠ []) (hlen8 : ∀ p ∈ ref, p.2.length = 8)
    (hw : buildWindow m res = some w) :
    (∃ b v, (b, v) ∈ ref ∧ assignRes ref m res = some b.data ∧
      ∀ p ∈ ref, rmsda v w ≤ rmsda p.2 w) ∧
    (∀ b0, (b0, w) ∈ ref → (∀ p ∈ ref, p.1 ≠ b0 → rmsda p.2 w ≠ 0) →
      assignRes ref m res = some b0.data ∧ rmsda w w = 0) := by
  refine ⟨assignRes_some_window ref m res w href hlen8 hw, ?_⟩
  intro b0 hb0 hothers
  obtain ⟨b, v, hbv, hres, hminv⟩ := assignRes_some_window ref m res w href hlen8 hw
  have h0 : rmsda v w = 0 :=
    le_antisymm (by simpa [rmsda_self w] using hminv (b0, w) hb0) (rmsda_nonneg v w)
  have hbb0 : b = b0 := by
    by_contra hne
    exact hothers (b, v) hbv hne h0
  exact ⟨hbb0 ▸ hres, rmsda_self w⟩

/-- Witness for C1, on the end-to-end scenario library at residue 3. -/
theorem PB_assign_min_score_witness :
    assignRes refAB mapFive 3 = some "a".data ∧
    rmsda [0, 0, 0, 0, 0, 0, 0, 0] [0, 0, 0, 0, 0, 0, 0, 0] = 0 :=
  (PB_assign_min_score refAB mapFive 3 [0, 0, 0, 0, 0, 0, 0, 0]
    (by decide) (by decide)
    (by norm_num [buildWindow, mapFive, dictGet])).2 "a"
    (by decide)
    (by norm_num [refAB, rmsda, angle_modulo_360_vect, angle_modulo_360,
      Function.comp])

/-- Claim C2 (corrected): for every angle, `angle_modulo_360` returns a value
congruent to it modulo 360 degrees; the result lies in the *closed* interval
`[-180, 180]` — not the claimed half-open `(-180, 180]` — and only for inputs
within `[-540, 540]`; angles already in `[-180, 180]` pass through
unchanged. -/
theorem angle_modulo_360_spec (x : ℚ) :
    (∃ k : ℤ, angle_modulo_360 x - x = 360 * k) ∧
    (-540 ≤ x → x ≤ 540 → -180 ≤ angle_modulo_360 x ∧ angle_modulo_360 x ≤ 180) ∧
    (-180 ≤ x → x ≤ 180 → angle_modulo_360 x = x) :=
  ⟨amod_congr x, amod_range x, amod_id x⟩

/-- Witness for C2 at the in-range input 100. -/
theorem angle_modulo_360_spec_witness :
    (∃ k : ℤ, angle_modulo_360 100 - 100 = 360 * k) ∧
    (-180 ≤ angle_modulo_360 100 ∧ angle_modulo_360 100 ≤ 180) ∧
    angle_modulo_360 100 = 100 :=
  ⟨(angle_modulo_360_spec 100).1,
   (angle_modulo_360_spec 100).2.1 (by norm_num) (by norm_num),
   (angle_modulo_360_spec 100).2.2 (by norm_num) (by norm_num)⟩

/-- Counterexample to C2 as stated: `angle_modulo_360 (-180) = -180`, which is
outside the claimed half-open range `(-180, 180]`, and
`angle_modulo_360 541 = 181 > 180`, outside any claimed range (the function
corrects by at most one multiple of 360). -/
theorem angle_modulo_360_range_cex :
    angle_modulo_360 (-180) = -180 ∧ ¬ (-180 < angle_modulo_360 (-180)) ∧
    angle_modulo_360 541 = 181 ∧ ¬ (angle_modulo_360 541 ≤ 180) := by
  norm_num [angle_modulo_360]

/-- Claim C3: a residue's output label is the sentinel `Z` exactly when its
8-angle window cannot be fully assembled (a neighbour among `i-2..i+2` absent,
or a null phi/psi), and processing continues across sentinel residues. -/
theorem PB_assign_sentinel (ref : List (String × List ℚ)) (m : AngleMap)
    (href : ref ≠ []) (hlen8 : ∀ p ∈ ref, p.2.length = 8)
    (hlab : ∀ p ∈ ref, p.1.data.length = 1) (hz : ∀ p ∈ ref, p.1 ≠ "Z") :
    ∃ out, PB_assign ref m = some out ∧ out = (residues m).map (resLabel ref m) ∧
      ∀ r ∈ residues m, (resLabel ref m r = 'Z' ↔ buildWindow m r = none) := by
  have hres : ∀ r ∈ residues m, ∃ c, assignRes ref m r = some [c] := fun r _ =>
    (assignRes_char ref m r href hlen8 hlab hz).imp (fun c hc => hc.1)
  refine ⟨_, assignAll_eq_map ref m (residues m) hres, rfl, ?_⟩
  intro r _
  obtain ⟨c, hc, hiff⟩ := assignRes_char ref m r href hlen8 hlab hz
  have hr : resLabel ref m r = c := by simp [resLabel, hc]
  rw [hr]
  exact hiff

/-- Witness for C3 on the end-to-end scenario. -/
theorem PB_assign_sentinel_witness :
    ∃ out, PB_assign refAB mapFive = some out ∧
      out = (residues mapFive).map (resLabel refAB mapFive) ∧
      ∀ r ∈ residues mapFive,
        (resLabel refAB mapFive r = 'Z' ↔ buildWindow mapFive r = none) :=
  PB_assign_sentinel refAB mapFive (by decide) (by decide) (by decide) (by decide)

/-- Claim C4 (corrected): `angle_modulo_360` is idempotent on `[-540, 540]`
(where its value falls in the pass-through interval `[-180, 180]`), but not on
all reals. -/
theorem angle_modulo_360_idem (x : ℚ) (h1 : -540 ≤ x) (h2 : x ≤ 540) :
    angle_modulo_360 (angle_modulo_360 x) = angle_modulo_360 x :=
  amod_id _ (amod_range x h1 h2).1 (amod_range x h1 h2).2

/-- Witness for C4 at 300. -/
theorem angle_modulo_360_idem_witness :
    angle_modulo_360 (angle_modulo_360 300) = angle_modulo_360 300 :=
  angle_modulo_360_idem 300 (by norm_num) (by norm_num)

/-- Counterexample to C4 as stated: at 541 the first application returns 181
and the second moves it to -179, so the normalization is not idempotent on all
reals. -/
theorem angle_modulo_360_idem_cex :
    angle_modulo_360 (angle_modulo_360 541) ≠ angle_modulo_360 541 := by
  norm_num [angle_modulo_360]

/-- Claim C5: the output contains exactly one label character per residue
index of the angle map, ordered by ascending residue index. -/
theorem PB_assign_complete (ref : List (String × List ℚ)) (m : AngleMap)
    (href : ref ≠ []) (hlen8 : ∀ p ∈ ref, p.2.length = 8)
    (hlab : ∀ p ∈ ref, p.1.data.length = 1) (hz : ∀ p ∈ ref, p.1 ≠ "Z")
    (hnd : (m.map Prod.fst).Nodup) :
    ∃ out, PB_assign ref m = some out ∧ out.length = m.length ∧
      out = (residues m).map (resLabel ref m) ∧
      List.Sorted (· ≤ ·) (residues m) ∧ (residues m).Nodup := by
  have hres : ∀ r ∈ residues m, ∃ c, assignRes ref m r = some [c] := fun r _ =>
    (assignRes_char ref m r href hlen8 hlab hz).imp (fun c hc => hc.1)
  refine ⟨_, assignAll_eq_map ref m (residues m) hres, ?_, rfl,
    residues_sorted m, residues_nodup m hnd⟩
  rw [List.length_map, residues_length]

/-- Witness for C5 on the end-to-end scenario. -/
theorem PB_assign_complete_witness :
    ∃ out, PB_assign refAB mapFive = some out ∧ out.length = mapFive.length ∧
      out = (residues mapFive).map (resLabel refAB mapFive) ∧
      List.Sorted (· ≤ ·) (residues mapFive) ∧ (residues mapFive).Nodup :=
  PB_assign_complete refAB mapFive (by decide) (by decide) (by decide) (by decide)
    (by decide)

/-- Claim C6 (corrected): the loader performs no arity check at all — given
any definition text whose lines parse and that defines a label `"a"`, loading
succeeds and returns the dictionary as parsed, whether or not the angle
vectors have equal lengths; an arity mismatch surfaces only later, at
classification time. -/
theorem read_pb_definitions_no_arity_check (s : String) (d : List (String × List ℚ))
    (h : load_pb_lines s = some d) (ha : (dictGet d "a").isSome) :
    read_pb_definitions s = some d := by
  simp [read_pb_definitions, h, ha]

/-- Witness for C6: the mismatched two-line library loads successfully. -/
theorem read_pb_definitions_no_arity_check_witness :
    read_pb_definitions "a 1 2\nb 1 2 3" = some [("a", [1, 2]), ("b", [1, 2, 3])] :=
  read_pb_definitions_no_arity_check _ _ (by decide) (by decide)

/-- Counterexample to C6 as stated: a reference text whose labels `a` and `b`
define 2 and 3 angles respectively does *not* raise a load-time failure — it
produces a ReferenceLibrary containing both mismatched entries. -/
theorem read_pb_definitions_arity_mismatch_cex :
    read_pb_definitions "a 1 2\nb 1 2 3" = some [("a", [1, 2]), ("b", [1, 2, 3])] ∧
    ([1, 2] : List ℚ).length ≠ ([1, 2, 3] : List ℚ).length := by
  exact ⟨by decide, by decide⟩

/-- Claim C7: the end-to-end scenario — library `{"a": [0]*8, "b": [10]*8}`,
residues 1..5 all resolved with zero angles — yields the sequence `ZZaZZ`. -/
theorem PB_assign_end_to_end :
    PB_assign refAB mapFive = some ['Z', 'Z', 'a', 'Z', 'Z'] := by
  norm_num [PB_assign, refAB, mapFive, residues, assignAll, assignRes, buildWindow,
    classify, buildScores, rmsda, angle_modulo_360_vect, angle_modulo_360, dictGet,
    dictInsert, pyMin, List.insertionSort, List.orderedInsert, Function.comp]

/-- Claim C8: with a nonempty, arity-consistent reference library, no
exception escapes the per-residue classification (every per-residue failure
becomes a `Z` and processing continues), and an empty angle map yields the
empty label sequence. -/
theorem PB_assign_no_exception (ref : List (String × List ℚ)) (m : AngleMap)
    (href : ref ≠ []) (hlen8 : ∀ p ∈ ref, p.2.length = 8) :
    (∃ out, PB_assign ref m = some out) ∧ PB_assign ref [] = some [] := by
  constructor
  · exact assignAll_isSome ref m (residues m)
      (fun r _ => assignRes_isSome ref m r href hlen8)
  · rfl

/-- Witness for C8 on the end-to-end scenario. -/
theorem PB_assign_no_exception_witness :
    (∃ out, PB_assign refAB mapFive = some out) ∧ PB_assign refAB [] = some [] :=
  PB_assign_no_exception refAB mapFive (by decide) (by decide)

/-- Claim C9: under exactly tied minimal scores the selected block is the one
occurring latest in the library's insertion order among the tied blocks,
because `rmsda_lst[score] = block` overwrites earlier blocks at an equal score
key: whenever entry `i` attains the minimal score and no later entry attains
it, entry `i`'s label is returned. -/
theorem classify_last_min (ref : List (String × List ℚ)) (w : List ℚ) (k : ℚ)
    (hlen : ∀ p ∈ ref, p.2.length = w.length) (i : ℕ) (hi : i < ref.length)
    (hik : rmsda (ref.get ⟨i, hi⟩).2 w = k) (hmin : ∀ p ∈ ref, k ≤ rmsda p.2 w)
    (hlast : ∀ j (hj : j < ref.length), i < j → rmsda (ref.get ⟨j, hj⟩).2 w ≠ k) :
    classify ref w = some (ref.get ⟨i, hi⟩).1 := by
  have href : ref ≠ [] := by
    intro h
    subst h
    exact absurd hi (by simp)
  obtain ⟨q, hach, hmin2, hcls⟩ := classify_spec ref w href hlen
  have hqk : q = k := by
    obtain ⟨p, hp, hpk⟩ := hach
    have h1 : q ≤ k := hik ▸ hmin2 _ (List.get_mem ref i hi)
    have h2 : k ≤ q := hpk ▸ hmin p hp
    exact le_antisymm h1 h2
  subst hqk
  rw [hcls]
  exact lastScore_last w q ref none i hi hik hlast

/-- Witness for C9: two blocks both at score 0 — the later block `b` wins. -/
theorem classify_last_min_witness :
    classify [("a", [0, 0, 0, 0, 0, 0, 0, 0]), ("b", [0, 0, 0, 0, 0, 0, 0, 0])]
      [0, 0, 0, 0, 0, 0, 0, 0] = some "b" := by
  have h := classify_last_min
    [("a", [0, 0, 0, 0, 0, 0, 0, 0]), ("b", [0, 0, 0, 0, 0, 0, 0, 0])]
    [0, 0, 0, 0, 0, 0, 0, 0] 0 (by norm_num) 1 (by norm_num)
    (rmsda_self _) (fun p _ => rmsda_nonneg p.2 _)
    (by intro j hj hlt; simp at hj; omega)
  simpa using h

/-- Claim C10: `read_pb_definitions` raises an uncaught `KeyError` whenever the
definition text parses but contains no line labelled exactly `"a"`, because
its diagnostic `print` indexes `pb_angles["a"]`. -/
theorem read_pb_definitions_missing_a (s : String) (d : List (String × List ℚ))
    (h : load_pb_lines s = some d) (ha : dictGet d "a" = none) :
    read_pb_definitions s = none := by
  simp [read_pb_definitions, h, ha]

/-- Witness for C10: a single well-formed line labelled `b` still fails. -/
theorem read_pb_definitions_missing_a_witness :
    read_pb_definitions "b 1 2 3" = none :=
  read_pb_definitions_missing_a _ [("b", [1, 2, 3])] (by decide) (by decide)

end PBxplore
